import Mathlib

/-!
Shallow embedding of the lambda-calculus parser (src/parser.rs):
tokenizer, recursive-descent AST builder, and the term-folding pass.
Strings are modelled as `List Char`; the mutable cursor of the Rust
AST builder becomes explicit passing of the remaining token list.
-/

set_option maxHeartbeats 1600000

namespace LambdaParser

/-- Modelled from the spec: the external `Term` type of the repository's
`term` module (the module is not under src/; only its constructors
`Var`, `abs`, `app` are used by the parser).  Per the spec it is a tagged
value, one of Variable (index), Abstraction (body),
Application (function, argument); the constructors are pure, unchecked
builders (the documented positivity of indices is not enforced by them). -/
inductive Term where
  | var : Nat → Term
  | abs : Term → Term
  | app : Term → Term → Term
deriving DecidableEq, Repr

/-- Rust `enum Error` from src/parser.rs: `InvalidCharacter((usize, char))`,
`InvalidExpression`, `EmptyExpression`. -/
inductive Error where
  | invalidCharacter : Nat × Char → Error
  | invalidExpression : Error
  | emptyExpression : Error
deriving DecidableEq, Repr

/-- Rust `enum Token` from src/parser.rs. -/
inductive Token where
  | lambda : Token
  | lparen : Token
  | rparen : Token
  | number : Nat → Token
deriving DecidableEq, Repr

/-- Rust `char::to_digit(16)`: ASCII decimal digits and the hex letters
in either case; every other character gives `none`. -/
def to_digit16 (c : Char) : Option Nat :=
  if 0x30 ≤ c.toNat ∧ c.toNat ≤ 0x39 then some (c.toNat - 0x30)
  else if 0x61 ≤ c.toNat ∧ c.toNat ≤ 0x66 then some (c.toNat - 0x61 + 10)
  else if 0x41 ≤ c.toNat ∧ c.toNat ≤ 0x46 then some (c.toNat - 0x41 + 10)
  else none

/-- Rust `char::is_whitespace`: the Unicode White_Space property
(U+0009–U+000D, U+0020, U+0085, U+00A0, U+1680, U+2000–U+200A,
U+2028, U+2029, U+202F, U+205F, U+3000). -/
def is_whitespace (c : Char) : Bool :=
  (0x9 ≤ c.toNat && c.toNat ≤ 0xD) || c.toNat == 0x20 || c.toNat == 0x85 ||
  c.toNat == 0xA0 || c.toNat == 0x1680 ||
  (0x2000 ≤ c.toNat && c.toNat ≤ 0x200A) || c.toNat == 0x2028 ||
  c.toNat == 0x2029 || c.toNat == 0x202F || c.toNat == 0x205F ||
  c.toNat == 0x3000

/-- The loop of `tokenize` (src/parser.rs lines 31–47): one character per
step; the position counter is incremented after the character is handled,
by 2 for the lambda glyph and by 1 otherwise. -/
def tokenizeAux : List Char → Nat → List Token → Except Error (List Token)
  | [], _, tokens => .ok tokens
  | c :: rest, position, tokens =>
    let next := position + (if c = 'λ' then 2 else 1)
    if c = '\\' ∨ c = 'λ' then
      tokenizeAux rest next (tokens ++ [.lambda])
    else if c = '(' then
      tokenizeAux rest next (tokens ++ [.lparen])
    else if c = ')' then
      tokenizeAux rest next (tokens ++ [.rparen])
    else
      match to_digit16 c with
      | some n => tokenizeAux rest next (tokens ++ [.number n])
      | none =>
        if is_whitespace c then tokenizeAux rest next tokens
        else .error (.invalidCharacter (position, c))

/-- Rust `tokenize` from src/parser.rs lines 26–50. -/
def tokenize (input : List Char) : Except Error (List Token) :=
  tokenizeAux input 0 []

/-- Rust `enum Expression` from src/parser.rs: the intermediate AST. -/
inductive Expression where
  | abstraction : Expression
  | sequence : List Expression → Expression
  | variable : Nat → Expression

/-- The scanning loop of `_get_ast` (src/parser.rs lines 64–84), with the
shared cursor made explicit: the second component of the result is the
token list remaining after the call (in the `Rparen` branch the Rust code
leaves the cursor on the `Rparen` and the caller's `*pos += 1` consumes
it; here the branch hands back the tokens after the `Rparen` directly,
and the end-of-input return likewise stands for the caller's increment
running the cursor past the end).  The `tokens.is_empty()` check of
`_get_ast` tests the full token slice, shared by every recursive call,
so it can fire only when the whole input tokenizes to nothing; it is
hoisted into `get_ast` below, and this loop never fails. -/
def astLoop : (tokens : List Token) → List Expression →
    Expression × { r : List Token // r.length ≤ tokens.length }
  | [], expr => ⟨.sequence expr, ⟨[], Nat.zero_le 0⟩⟩
  | .lambda :: rest, expr =>
    match astLoop rest (expr ++ [.abstraction]) with
    | ⟨e, r, h⟩ => ⟨e, r, Nat.le_succ_of_le h⟩
  | .number i :: rest, expr =>
    match astLoop rest (expr ++ [.variable i]) with
    | ⟨e, r, h⟩ => ⟨e, r, Nat.le_succ_of_le h⟩
  | .lparen :: rest, expr =>
    match astLoop rest [] with
    | ⟨subtree, r₁, h₁⟩ =>
      match astLoop r₁ (expr ++ [subtree]) with
      | ⟨e, r₂, h₂⟩ => ⟨e, r₂, Nat.le_succ_of_le (h₂.trans h₁)⟩
  | .rparen :: rest, expr => ⟨.sequence expr, ⟨rest, Nat.le_succ rest.length⟩⟩
termination_by tokens => tokens.length
decreasing_by
  · simp
  · simp
  · simp
  · exact Nat.lt_succ_of_le h₁

/-- Rust `get_ast` from src/parser.rs lines 87–91 together with the
`tokens.is_empty()` guard of `_get_ast` (line 62), which only the
outermost call can trigger. -/
def get_ast (tokens : List Token) : Except Error Expression :=
  if tokens.isEmpty then .error .emptyExpression
  else .ok (astLoop tokens []).1

/-- Rust `fold_terms` from src/parser.rs lines 145–156: left fold of the
operand list into applications; the reverse/pop/reverse dance extracts
the first element as the seed. -/
def fold_terms : List Term → Except Error Term
  | [] => .error .emptyExpression
  | [t] => .ok t
  | fst :: rest => .ok (rest.foldl Term.app fst)

/-- The `while let Some(Abstraction) = stack.pop()` loop of `fold_exprs`
(src/parser.rs lines 138–140), popping from the back of the stack; this
helper consumes the stack already reversed (front = last pushed). -/
def wrapRev : List Expression → Term → Term
  | [], ret => ret
  | .abstraction :: rest, ret => wrapRev rest (.abs ret)
  | .sequence _ :: _, ret => ret
  | .variable _ :: _, ret => ret

/-- Rust `fold_exprs` from src/parser.rs lines 118–143: scan the level's
elements, pushing markers onto `stack` and resolved operands onto
`output` (nested sequences resolved recursively with fresh stacks);
then fold the operands and wrap one abstraction per popped marker. -/
def fold_exprs : List Expression → List Expression → List Term → Except Error Term
  | [], stack, output =>
    match fold_terms output with
    | .error e => .error e
    | .ok ret => .ok (wrapRev stack.reverse ret)
  | .variable i :: rest, stack, output =>
    fold_exprs rest stack (output ++ [Term.var i])
  | .abstraction :: rest, stack, output =>
    fold_exprs rest (stack ++ [.abstraction]) output
  | .sequence es :: rest, stack, output =>
    match fold_exprs es [] [] with
    | .error e => .error e
    | .ok subexpr => fold_exprs rest stack (output ++ [subexpr])
termination_by exprs _ _ => sizeOf exprs

/-- Rust `parse` from src/parser.rs lines 105–116. -/
def parse (input : List Char) : Except Error Term :=
  match tokenize input with
  | .error e => .error e
  | .ok tokens =>
    match get_ast tokens with
    | .error e => .error e
    | .ok ast =>
      match ast with
      | .sequence exprs => fold_exprs exprs [] []
      | .abstraction => .error .invalidExpression
      | .variable _ => .error .invalidExpression

/-- The function `astLoop` with the length bound on the remaining tokens erased:
the plain result–rest pair, convenient for stating and rewriting. -/
def astLoopE (tokens : List Token) (expr : List Expression) :
    Expression × List Token :=
  ⟨(astLoop tokens expr).1, (astLoop tokens expr).2.1⟩

theorem astLoopE_nil (expr : List Expression) :
    astLoopE [] expr = ⟨.sequence expr, []⟩ := by
  simp [astLoopE, astLoop]

theorem astLoopE_lambda (rest : List Token) (expr : List Expression) :
    astLoopE (.lambda :: rest) expr = astLoopE rest (expr ++ [.abstraction]) := by
  rcases h : astLoop rest (expr ++ [.abstraction]) with ⟨e, r, hr⟩
  simp [astLoopE, astLoop, h]

theorem astLoopE_number (i : Nat) (rest : List Token) (expr : List Expression) :
    astLoopE (.number i :: rest) expr = astLoopE rest (expr ++ [.variable i]) := by
  rcases h : astLoop rest (expr ++ [.variable i]) with ⟨e, r, hr⟩
  simp [astLoopE, astLoop, h]

theorem astLoopE_rparen (rest : List Token) (expr : List Expression) :
    astLoopE (.rparen :: rest) expr = ⟨.sequence expr, rest⟩ := by
  simp [astLoopE, astLoop]

theorem astLoopE_lparen (rest : List Token) (expr : List Expression) :
    astLoopE (.lparen :: rest) expr =
      astLoopE (astLoopE rest []).2 (expr ++ [(astLoopE rest []).1]) := by
  rcases h₁ : astLoop rest [] with ⟨sub, r₁, hr₁⟩
  rcases h₂ : astLoop r₁ (expr ++ [sub]) with ⟨e, r₂, hr₂⟩
  simp [astLoopE, astLoop, h₁, h₂]

theorem get_ast_eq (tokens : List Token) :
    get_ast tokens =
      if tokens.isEmpty then .error .emptyExpression
      else .ok (astLoopE tokens []).1 := by
  simp [get_ast, astLoopE]

/-- Decidable equality for `Except`, so results of the parser can be
compared by `decide`. -/
instance {ε α : Type} [DecidableEq ε] [DecidableEq α] : DecidableEq (Except ε α) :=
  fun a b =>
    match a, b with
    | .ok x, .ok y =>
      if h : x = y then .isTrue (by rw [h]) else .isFalse (by simp [h])
    | .error x, .error y =>
      if h : x = y then .isTrue (by rw [h]) else .isFalse (by simp [h])
    | .ok _, .error _ => .isFalse (by simp)
    | .error _, .ok _ => .isFalse (by simp)

/-- The width the tokenizer's position counter adds for one consumed
character (src/parser.rs line 46). -/
def rustWidth (c : Char) : Nat := if c = 'λ' then 2 else 1

/-- The number of bytes of one character in UTF-8 (Rust
`char::len_utf8`), used to state the byte-offset reading of reported
positions. -/
def utf8Len (c : Char) : Nat :=
  if c.toNat < 0x80 then 1
  else if c.toNat < 0x800 then 2
  else if c.toNat < 0x10000 then 3
  else 4

/-- Swap the two spellings of the lambda binder: backslash to glyph and
glyph to backslash, every other character unchanged. -/
def swapLam (c : Char) : Char :=
  if c = '\\' then 'λ' else if c = 'λ' then '\\' else c

/-- Whether an intermediate expression is an abstraction marker. -/
def isMarker : Expression → Bool
  | .abstraction => true
  | .sequence _ => false
  | .variable _ => false

/-- All variable indices of a term satisfy `p`. -/
def allVars (p : Nat → Bool) : Term → Bool
  | .var i => p i
  | .abs t => allVars p t
  | .app f a => allVars p f && allVars p a

mutual

/-- All variable indices of an intermediate expression satisfy `p`. -/
def exprVars (p : Nat → Bool) : Expression → Bool
  | .abstraction => true
  | .variable i => p i
  | .sequence es => exprsVars p es

/-- All variable indices of a list of intermediate expressions satisfy `p`. -/
def exprsVars (p : Nat → Bool) : List Expression → Bool
  | [] => true
  | e :: rest => exprVars p e && exprsVars p rest

end

mutual

/-- Follows the spec's words: some sequence level of the expression,
top-level or nested, contains zero operands after removing abstraction
markers. -/
def hasEmptyLevel : Expression → Bool
  | .abstraction => false
  | .variable _ => false
  | .sequence es => es.all isMarker || anyEmptyLevel es

/-- Some element of the list has an empty sequence level. -/
def anyEmptyLevel : List Expression → Bool
  | [] => false
  | e :: rest => hasEmptyLevel e || anyEmptyLevel rest

end

/-- Resolve each element of a level to a `Term` the way `fold_exprs`
resolves a single operand (an abstraction marker has no operand value
and yields `EmptyExpression`); used to state the folding law. -/
def resolveOps : List Expression → Except Error (List Term)
  | [] => .ok []
  | e :: rest =>
    match fold_exprs [e] [] [] with
    | .error err => .error err
    | .ok t =>
      match resolveOps rest with
      | .error err => .error err
      | .ok ts => .ok (t :: ts)

/-- Wrap `k` nested unary abstractions around a body. -/
def nestAbs : Nat → Term → Term
  | 0, t => t
  | k + 1, t => .abs (nestAbs k t)

/-- Follows the spec's words: a character the tokenizer accepts —
lambda glyph, backslash, parenthesis, hex digit, or whitespace. -/
def specGoodChar (c : Char) : Bool :=
  c = '\\' || c = 'λ' || c = '(' || c = ')' ||
  (to_digit16 c).isSome || is_whitespace c

/-- Follows the spec's words: the token one character contributes
(whitespace contributes none). -/
def specCharToken (c : Char) : Option Token :=
  if c = '\\' || c = 'λ' then some .lambda
  else if c = '(' then some .lparen
  else if c = ')' then some .rparen
  else
    match to_digit16 c with
    | some n => some (.number n)
    | none => none

/-- Whether a parse result is the `InvalidExpression` error. -/
def isInvalidExpressionResult : Except Error Term → Bool
  | .error .invalidExpression => true
  | .error (.invalidCharacter _) => false
  | .error .emptyExpression => false
  | .ok _ => false

theorem fold_terms_cons (t : Term) (ts : List Term) :
    fold_terms (t :: ts) = .ok (ts.foldl Term.app t) := by
  cases ts with
  | nil => simp [fold_terms]
  | cons u us => simp [fold_terms]

theorem fold_terms_error_iff (ts : List Term) (e : Error) :
    fold_terms ts = .error e ↔ ts = [] ∧ e = .emptyExpression := by
  cases ts with
  | nil => simp [fold_terms, eq_comm]
  | cons t us => simp [fold_terms_cons]

theorem nestAbs_abs (k : Nat) (t : Term) :
    nestAbs k (.abs t) = .abs (nestAbs k t) := by
  induction k with
  | zero => rfl
  | succ k ih => simp [nestAbs, ih]

theorem wrapRev_replicate (k : Nat) (t : Term) :
    wrapRev (List.replicate k .abstraction) t = nestAbs k t := by
  induction k generalizing t with
  | zero => rfl
  | succ k ih => simp [List.replicate_succ, wrapRev, ih, nestAbs, nestAbs_abs]

theorem fold_exprs_nil (stack : List Expression) (output : List Term) :
    fold_exprs [] stack output =
      match fold_terms output with
      | .error e => .error e
      | .ok ret => .ok (wrapRev stack.reverse ret) := by
  simp [fold_exprs]

theorem fold_single_var (i : Nat) :
    fold_exprs [.variable i] [] [] = .ok (.var i) := by
  simp [fold_exprs, fold_terms, wrapRev]

theorem fold_single_marker :
    fold_exprs [.abstraction] [] [] = .error .emptyExpression := by
  simp [fold_exprs, fold_terms]

theorem fold_single_seq (es : List Expression) :
    fold_exprs [.sequence es] [] [] = fold_exprs es [] [] := by
  rcases h : fold_exprs es [] [] with e | t
  · simp [fold_exprs, h]
  · simp [fold_exprs, h, fold_terms, wrapRev]

theorem fold_exprs_var (i : Nat) (rest stack : List Expression) (output : List Term) :
    fold_exprs (.variable i :: rest) stack output =
      fold_exprs rest stack (output ++ [Term.var i]) := by
  simp [fold_exprs]

theorem fold_exprs_marker_step (rest stack : List Expression) (output : List Term) :
    fold_exprs (.abstraction :: rest) stack output =
      fold_exprs rest (stack ++ [.abstraction]) output := by
  simp [fold_exprs]

theorem fold_exprs_seq_err (es rest stack : List Expression) (output : List Term)
    (err : Error) (h : fold_exprs es [] [] = .error err) :
    fold_exprs (.sequence es :: rest) stack output = .error err := by
  simp [fold_exprs, h]

theorem fold_exprs_seq_ok (es rest stack : List Expression) (output : List Term)
    (sub : Term) (h : fold_exprs es [] [] = .ok sub) :
    fold_exprs (.sequence es :: rest) stack output =
      fold_exprs rest stack (output ++ [sub]) := by
  simp [fold_exprs, h]

/-- Scanning a level is insensitive to where its abstraction markers sit:
they can all be moved onto the stack up front. -/
theorem fold_exprs_markers (es : List Expression) :
    ∀ (stack : List Expression) (output : List Term),
    fold_exprs es stack output =
      fold_exprs (es.filter fun e => !isMarker e)
        (stack ++ List.replicate (es.countP isMarker) .abstraction) output := by
  induction es with
  | nil => intro stack output; simp [fold_exprs]
  | cons e rest ih =>
    intro stack output
    cases e with
    | «variable» i =>
      have hf : (Expression.variable i :: rest).filter (fun e => !isMarker e) =
          Expression.variable i :: rest.filter (fun e => !isMarker e) := by
        simp [isMarker]
      have hc : (Expression.variable i :: rest).countP isMarker =
          rest.countP isMarker := by
        simp [List.countP_cons, isMarker]
      rw [hf, hc, fold_exprs_var, fold_exprs_var, ih]
    | abstraction =>
      have hf : (Expression.abstraction :: rest).filter (fun e => !isMarker e) =
          rest.filter (fun e => !isMarker e) := by
        simp [isMarker]
      have hc : (Expression.abstraction :: rest).countP isMarker =
          rest.countP isMarker + 1 := by
        simp [List.countP_cons, isMarker]
      rw [hf, hc, fold_exprs_marker_step, ih, List.replicate_succ]
      congr 1
      simp
    | sequence es' =>
      have hf : (Expression.sequence es' :: rest).filter (fun e => !isMarker e) =
          Expression.sequence es' :: rest.filter (fun e => !isMarker e) := by
        simp [isMarker]
      have hc : (Expression.sequence es' :: rest).countP isMarker =
          rest.countP isMarker := by
        simp [List.countP_cons, isMarker]
      rw [hf, hc]
      rcases h : fold_exprs es' [] [] with err | sub
      · rw [fold_exprs_seq_err es' rest stack output err h,
          fold_exprs_seq_err es' _ _ _ err h]
      · rw [fold_exprs_seq_ok es' rest stack output sub h,
          fold_exprs_seq_ok es' _ _ _ sub h, ih]

/-- On a level without abstraction markers, scanning resolves each
element to one operand term; the fold is the application fold of those
operands, wrapped by whatever the stack holds. -/
theorem fold_exprs_resolve (es : List Expression) :
    ∀ (stack : List Expression) (output : List Term),
    (∀ e ∈ es, isMarker e = false) →
    fold_exprs es stack output =
      (match resolveOps es with
      | .error err => .error err
      | .ok rs =>
        match fold_terms (output ++ rs) with
        | .error err => .error err
        | .ok t => .ok (wrapRev stack.reverse t)) := by
  induction es with
  | nil => intro stack output _; simp [fold_exprs, resolveOps]
  | cons a rest ih =>
    intro stack output hm
    have hmrest : ∀ e ∈ rest, isMarker e = false :=
      fun e he => hm e (List.mem_cons_of_mem _ he)
    cases a with
    | «variable» i =>
      rw [fold_exprs_var, ih _ _ hmrest]
      simp only [resolveOps, fold_single_var]
      rcases hr : resolveOps rest with err | ts
      · rfl
      · simp [List.append_assoc]
    | abstraction =>
      have := hm .abstraction (List.mem_cons_self _ _)
      simp [isMarker] at this
    | sequence es' =>
      rcases h : fold_exprs es' [] [] with err | sub
      · rw [fold_exprs_seq_err es' rest stack output err h]
        have h₁ : fold_exprs [Expression.sequence es'] [] [] = .error err := by
          rw [fold_single_seq, h]
        simp only [resolveOps, h₁]
      · rw [fold_exprs_seq_ok es' rest stack output sub h, ih _ _ hmrest]
        have h₁ : fold_exprs [Expression.sequence es'] [] [] = .ok sub := by
          rw [fold_single_seq, h]
        simp only [resolveOps, h₁]
        rcases hr : resolveOps rest with err | ts
        · rfl
        · simp [List.append_assoc]

theorem resolveOps_ok_no_marker (es : List Expression) :
    ∀ rs, resolveOps es = .ok rs → ∀ e ∈ es, isMarker e = false := by
  induction es with
  | nil => intro rs _ e he; simp at he
  | cons a rest ih =>
    intro rs h e he
    rcases List.mem_cons.mp he with rfl | hmem
    · cases e with
      | abstraction => simp [resolveOps, fold_single_marker] at h
      | «variable» i => simp [isMarker]
      | sequence es' => simp [isMarker]
    · rcases h₁ : fold_exprs [a] [] [] with err | t
      · simp only [resolveOps, h₁] at h
        cases h
      · rcases h₂ : resolveOps rest with err | ts
        · simp only [resolveOps, h₁, h₂] at h
          cases h
        · exact ih ts h₂ e hmem

theorem filter_replicate_marker (k : Nat) :
    (List.replicate k Expression.abstraction).filter (fun e => !isMarker e) = [] := by
  induction k with
  | zero => rfl
  | succ n ih => simp [List.replicate_succ, List.filter_cons, isMarker, ih]

theorem countP_replicate_marker (k : Nat) :
    (List.replicate k Expression.abstraction).countP isMarker = k := by
  induction k with
  | zero => rfl
  | succ n ih => simp [List.replicate_succ, List.countP_cons, isMarker, ih]

/-- Curried folding: a level of `k` leading markers followed by
resolvable operands folds to `k` nested abstractions around the
left-associated application of the operands. -/
theorem fold_exprs_curried_aux (k : Nat) (es : List Expression) (t : Term)
    (ts : List Term) (h : resolveOps es = .ok (t :: ts)) :
    fold_exprs (List.replicate k .abstraction ++ es) [] [] =
      .ok (nestAbs k (ts.foldl Term.app t)) := by
  have hm := resolveOps_ok_no_marker es _ h
  rw [fold_exprs_markers]
  have hf : (List.replicate k Expression.abstraction ++ es).filter
      (fun e => !isMarker e) = es := by
    rw [List.filter_append, filter_replicate_marker, List.nil_append]
    exact List.filter_eq_self.mpr (fun e he => by simp [hm e he])
  have hc : (List.replicate k Expression.abstraction ++ es).countP isMarker = k := by
    rw [List.countP_append, countP_replicate_marker]
    have : es.countP isMarker = 0 :=
      List.countP_eq_zero.mpr (fun e he => by simp [hm e he])
    omega
  rw [hf, hc, fold_exprs_resolve es _ _ hm, h]
  simp only [List.nil_append, fold_terms_cons]
  rw [List.reverse_replicate, wrapRev_replicate]

/-- The folding pass can fail only with `EmptyExpression`. -/
theorem fold_exprs_error_empty (es stack : List Expression) (output : List Term) :
    ∀ e, fold_exprs es stack output = .error e → e = .emptyExpression := by
  induction es, stack, output using fold_exprs.induct with
  | case1 stack output er hft =>
    intro e h
    rw [fold_exprs_nil, hft] at h
    simp only [Except.error.injEq] at h
    subst h
    exact ((fold_terms_error_iff output er).mp hft).2
  | case2 stack output t hft =>
    intro e h
    rw [fold_exprs_nil, hft] at h
    cases h
  | case3 i rest stack output ih =>
    intro e h
    rw [fold_exprs_var] at h
    exact ih e h
  | case4 rest stack output ih =>
    intro e h
    rw [fold_exprs_marker_step] at h
    exact ih e h
  | case5 es' rest stack output err hseq ihs =>
    intro e h
    rw [fold_exprs_seq_err _ _ _ _ _ hseq] at h
    simp only [Except.error.injEq] at h
    subst h
    exact ihs err hseq
  | case6 es' rest stack output sub hseq ihs ih =>
    intro e h
    rw [fold_exprs_seq_ok _ _ _ _ _ hseq] at h
    exact ih e h

/-- The folding pass fails exactly when some level it reaches has zero
operands: either a nested level of `es` is empty, or the scan ends with
nothing in the output. -/
theorem fold_exprs_empty_iff (es stack : List Expression) (output : List Term) :
    fold_exprs es stack output = .error .emptyExpression ↔
      (anyEmptyLevel es = true ∨ (output = [] ∧ es.all isMarker = true)) := by
  induction es, stack, output using fold_exprs.induct with
  | case1 stack output er hft =>
    have hh := (fold_terms_error_iff output er).mp hft
    rw [fold_exprs_nil, hft]
    simp [anyEmptyLevel, hh.1, hh.2]
  | case2 stack output t hft =>
    have hne : output ≠ [] := by
      rintro rfl
      simp [fold_terms] at hft
    rw [fold_exprs_nil, hft]
    simp [anyEmptyLevel, hne]
  | case3 i rest stack output ih =>
    rw [fold_exprs_var, ih]
    simp [anyEmptyLevel, hasEmptyLevel, List.all_cons, isMarker]
  | case4 rest stack output ih =>
    rw [fold_exprs_marker_step, ih]
    simp [anyEmptyLevel, hasEmptyLevel, List.all_cons, isMarker]
  | case5 es' rest stack output err hseq ihs =>
    have herr : err = .emptyExpression := fold_exprs_error_empty es' [] [] err hseq
    subst herr
    have hin : hasEmptyLevel (.sequence es') = true := by
      have hd := ihs.mp hseq
      rcases hd with h1 | h2
      · simp [hasEmptyLevel, h1]
      · simp [hasEmptyLevel, h2.2]
    rw [fold_exprs_seq_err _ _ _ _ _ hseq]
    simp [anyEmptyLevel, hin]
  | case6 es' rest stack output sub hseq ihs ih =>
    have hni : hasEmptyLevel (.sequence es') = false := by
      cases hh : hasEmptyLevel (.sequence es') with
      | false => rfl
      | true =>
        simp only [hasEmptyLevel, Bool.or_eq_true] at hh
        have hcontr : fold_exprs es' [] [] = .error .emptyExpression := by
          apply ihs.mpr
          rcases hh with h1 | h2
          · exact Or.inr ⟨rfl, h1⟩
          · exact Or.inl h2
        rw [hcontr] at hseq
        cases hseq
    rw [fold_exprs_seq_ok _ _ _ _ _ hseq, ih]
    simp [anyEmptyLevel, hni, List.all_cons, isMarker]

theorem astLoopE_rest_length (tokens : List Token) (expr : List Expression) :
    (astLoopE tokens expr).2.length ≤ tokens.length :=
  (astLoop tokens expr).2.2

/-- The AST builder always returns a `Sequence` at every level. -/
theorem astLoopE_shape (tokens : List Token) (expr : List Expression) :
    ∃ es, (astLoopE tokens expr).1 = .sequence es := by
  induction tokens, expr using astLoop.induct with
  | case1 expr => exact ⟨expr, by rw [astLoopE_nil]⟩
  | case2 rest expr e r h heq ih =>
    rw [astLoopE_lambda]
    exact ih
  | case3 i rest expr e r h heq ih =>
    rw [astLoopE_number]
    exact ih
  | case4 rest expr e r h heq e₁ r₁ h₁ heq₁ ih₁ ih₂ =>
    rw [astLoopE_lparen]
    have hE : astLoopE rest [] = (e, r) := by simp [astLoopE, heq]
    rw [hE]
    exact ih₂
  | case5 rest expr => exact ⟨expr, by rw [astLoopE_rparen]⟩

/-- Every token the AST builder hands back as "remaining" was among the
tokens it was given. -/
theorem astLoopE_rest_subset (tokens : List Token) (expr : List Expression) :
    ∀ tok ∈ (astLoopE tokens expr).2, tok ∈ tokens := by
  induction tokens, expr using astLoop.induct with
  | case1 expr => simp [astLoopE_nil]
  | case2 rest expr e r h heq ih =>
    rw [astLoopE_lambda]
    intro tok htok
    exact List.mem_cons_of_mem _ (ih tok htok)
  | case3 i rest expr e r h heq ih =>
    rw [astLoopE_number]
    intro tok htok
    exact List.mem_cons_of_mem _ (ih tok htok)
  | case4 rest expr e r h heq e₁ r₁ h₁ heq₁ ih₁ ih₂ =>
    rw [astLoopE_lparen]
    have hE : astLoopE rest [] = (e, r) := by simp [astLoopE, heq]
    rw [hE]
    intro tok htok
    have h₂ : tok ∈ r := ih₂ tok htok
    have h₃ : tok ∈ rest := ih₁ tok (by rw [hE]; exact h₂)
    exact List.mem_cons_of_mem _ h₃
  | case5 rest expr =>
    rw [astLoopE_rparen]
    intro tok htok
    exact List.mem_cons_of_mem _ htok

theorem exprsVars_append (p : Nat → Bool) (a b : List Expression) :
    exprsVars p (a ++ b) = (exprsVars p a && exprsVars p b) := by
  induction a with
  | nil => simp [exprsVars]
  | cons e rest ih => simp [exprsVars, ih, Bool.and_assoc]

/-- Variable indices in the built AST all come from `Number` tokens (or
from the accumulated prefix). -/
theorem astLoopE_vars (p : Nat → Bool) (tokens : List Token) (expr : List Expression) :
    (∀ n, Token.number n ∈ tokens → p n = true) →
    exprsVars p expr = true →
    exprVars p (astLoopE tokens expr).1 = true := by
  induction tokens, expr using astLoop.induct with
  | case1 expr =>
    intro _ he
    rw [astLoopE_nil]
    simpa [exprVars] using he
  | case2 rest expr e r h heq ih =>
    intro ht he
    rw [astLoopE_lambda]
    refine ih (fun n hn => ht n (List.mem_cons_of_mem _ hn)) ?_
    simp [exprsVars_append, he, exprsVars, exprVars]
  | case3 i rest expr e r h heq ih =>
    intro ht he
    rw [astLoopE_number]
    refine ih (fun n hn => ht n (List.mem_cons_of_mem _ hn)) ?_
    have hi : p i = true := ht i (List.mem_cons_self _ _)
    simp [exprsVars_append, he, exprsVars, exprVars, hi]
  | case4 rest expr e r h heq e₁ r₁ h₁ heq₁ ih₁ ih₂ =>
    intro ht he
    rw [astLoopE_lparen]
    have hE : astLoopE rest [] = (e, r) := by simp [astLoopE, heq]
    rw [hE]
    have hrest : ∀ n, Token.number n ∈ rest → p n = true :=
      fun n hn => ht n (List.mem_cons_of_mem _ hn)
    have hsub : exprVars p e = true := by
      have := ih₁ hrest (by simp [exprsVars])
      rwa [hE] at this
    refine ih₂ (fun n hn => hrest n (astLoopE_rest_subset rest [] (.number n) (by rw [hE]; exact hn))) ?_
    simp [exprsVars_append, he, exprsVars, hsub]
  | case5 rest expr =>
    intro _ he
    rw [astLoopE_rparen]
    simpa [exprVars] using he

theorem allVars_foldl (p : Nat → Bool) (ts : List Term) :
    ∀ t, allVars p t = true → (∀ u ∈ ts, allVars p u = true) →
    allVars p (ts.foldl Term.app t) = true := by
  induction ts with
  | nil => intro t ht _; simpa using ht
  | cons u us ih =>
    intro t ht hus
    simp only [List.foldl_cons]
    exact ih (Term.app t u)
      (by simp [allVars, ht, hus u (List.mem_cons_self _ _)])
      (fun v hv => hus v (List.mem_cons_of_mem _ hv))

theorem wrapRev_vars (p : Nat → Bool) (stack : List Expression) :
    ∀ t, allVars p t = true → allVars p (wrapRev stack t) = true := by
  induction stack with
  | nil => intro t ht; simpa [wrapRev] using ht
  | cons e rest ih =>
    intro t ht
    cases e with
    | abstraction => exact ih (.abs t) (by simpa [allVars] using ht)
    | sequence es => simpa [wrapRev] using ht
    | «variable» i => simpa [wrapRev] using ht

/-- Variable indices in a folded term all come from the level's
expressions (or the accumulated output). -/
theorem fold_exprs_vars (p : Nat → Bool) (es stack : List Expression) (output : List Term) :
    exprsVars p es = true → (∀ u ∈ output, allVars p u = true) →
    ∀ t, fold_exprs es stack output = .ok t → allVars p t = true := by
  induction es, stack, output using fold_exprs.induct with
  | case1 stack output er hft =>
    intro _ _ t h
    rw [fold_exprs_nil, hft] at h
    cases h
  | case2 stack output t₀ hft =>
    intro _ hout t h
    rw [fold_exprs_nil, hft] at h
    simp only [Except.ok.injEq] at h
    subst h
    have ht₀ : allVars p t₀ = true := by
      cases output with
      | nil => simp [fold_terms] at hft
      | cons u us =>
        rw [fold_terms_cons] at hft
        simp only [Except.ok.injEq] at hft
        subst hft
        exact allVars_foldl p us u (hout u (List.mem_cons_self _ _))
          (fun v hv => hout v (List.mem_cons_of_mem _ hv))
    exact wrapRev_vars p stack.reverse t₀ ht₀
  | case3 i rest stack output ih =>
    intro hes hout t h
    rw [fold_exprs_var] at h
    simp only [exprsVars, exprVars, Bool.and_eq_true] at hes
    refine ih hes.2 ?_ t h
    intro u hu
    rcases List.mem_append.mp hu with h1 | h2
    · exact hout u h1
    · simp only [List.mem_singleton] at h2
      subst h2
      simpa [allVars] using hes.1
  | case4 rest stack output ih =>
    intro hes hout t h
    rw [fold_exprs_marker_step] at h
    simp only [exprsVars, exprVars, Bool.and_eq_true] at hes
    exact ih hes.2 hout t h
  | case5 es' rest stack output err hseq ihs =>
    intro _ _ t h
    rw [fold_exprs_seq_err _ _ _ _ _ hseq] at h
    cases h
  | case6 es' rest stack output sub hseq ihs ih =>
    intro hes hout t h
    rw [fold_exprs_seq_ok _ _ _ _ _ hseq] at h
    simp only [exprsVars, exprVars, Bool.and_eq_true] at hes
    have hsub : allVars p sub = true :=
      ihs hes.1 (by intro u hu; simp at hu) sub hseq
    refine ih hes.2 ?_ t h
    intro u hu
    rcases List.mem_append.mp hu with h1 | h2
    · exact hout u h1
    · simp only [List.mem_singleton] at h2
      subst h2
      exact hsub

theorem tokenizeAux_nil (pos : Nat) (acc : List Token) :
    tokenizeAux [] pos acc = .ok acc := rfl

theorem tokenizeAux_cons_lambda (c : Char) (rest : List Char) (pos : Nat)
    (acc : List Token) (h : c = '\\' ∨ c = 'λ') :
    tokenizeAux (c :: rest) pos acc =
      tokenizeAux rest (pos + rustWidth c) (acc ++ [.lambda]) := by
  rcases h with rfl | rfl <;> simp [tokenizeAux, rustWidth]

theorem tokenizeAux_cons_lparen (rest : List Char) (pos : Nat) (acc : List Token) :
    tokenizeAux ('(' :: rest) pos acc =
      tokenizeAux rest (pos + rustWidth '(') (acc ++ [.lparen]) := by
  simp [tokenizeAux, rustWidth]

theorem tokenizeAux_cons_rparen (rest : List Char) (pos : Nat) (acc : List Token) :
    tokenizeAux (')' :: rest) pos acc =
      tokenizeAux rest (pos + rustWidth ')') (acc ++ [.rparen]) := by
  simp [tokenizeAux, rustWidth]

theorem to_digit16_not_special (c : Char) (n : Nat) (h : to_digit16 c = some n) :
    c ≠ '\\' ∧ c ≠ 'λ' ∧ c ≠ '(' ∧ c ≠ ')' := by
  refine ⟨?_, ?_, ?_, ?_⟩ <;> rintro rfl <;> simp [to_digit16] at h

theorem tokenizeAux_cons_digit (c : Char) (rest : List Char) (pos : Nat)
    (acc : List Token) (n : Nat) (h : to_digit16 c = some n) :
    tokenizeAux (c :: rest) pos acc =
      tokenizeAux rest (pos + rustWidth c) (acc ++ [.number n]) := by
  obtain ⟨h1, h2, h3, h4⟩ := to_digit16_not_special c n h
  simp [tokenizeAux, h1, h2, h3, h4, h, rustWidth]

theorem is_whitespace_not_special (c : Char) (h : is_whitespace c = true) :
    c ≠ '\\' ∧ c ≠ 'λ' ∧ c ≠ '(' ∧ c ≠ ')' ∧ to_digit16 c = none := by
  have h' := h
  simp only [is_whitespace, Bool.or_eq_true, Bool.and_eq_true,
    decide_eq_true_eq, beq_iff_eq] at h'
  refine ⟨?_, ?_, ?_, ?_, ?_⟩
  · rintro rfl; exact absurd h' (by decide)
  · rintro rfl; exact absurd h' (by decide)
  · rintro rfl; exact absurd h' (by decide)
  · rintro rfl; exact absurd h' (by decide)
  · simp only [to_digit16]
    rw [if_neg (by omega), if_neg (by omega), if_neg (by omega)]

theorem tokenizeAux_cons_ws (c : Char) (rest : List Char) (pos : Nat)
    (acc : List Token) (h : is_whitespace c = true) :
    tokenizeAux (c :: rest) pos acc =
      tokenizeAux rest (pos + rustWidth c) acc := by
  obtain ⟨h1, h2, h3, h4, h5⟩ := is_whitespace_not_special c h
  simp [tokenizeAux, h1, h2, h3, h4, h5, h, rustWidth]

theorem tokenizeAux_cons_bad (c : Char) (rest : List Char) (pos : Nat)
    (acc : List Token) (h : specGoodChar c = false) :
    tokenizeAux (c :: rest) pos acc = .error (.invalidCharacter (pos, c)) := by
  have h' := h
  simp only [specGoodChar, Bool.or_eq_false_iff, decide_eq_false_iff_not] at h'
  obtain ⟨⟨⟨⟨⟨h1, h2⟩, h3⟩, h4⟩, h5⟩, h6⟩ := h'
  have h5' : to_digit16 c = none := by
    rcases hx : to_digit16 c with _ | n
    · rfl
    · rw [hx] at h5
      simp at h5
  simp [tokenizeAux, h1, h2, h3, h4, h5', h6]

/-- Exhaustive classification of one input character, mirroring the
branch order of the tokenizer. -/
theorem charCases (c : Char) :
    (c = '\\' ∨ c = 'λ') ∨ c = '(' ∨ c = ')' ∨ (∃ n, to_digit16 c = some n) ∨
      is_whitespace c = true ∨ specGoodChar c = false := by
  by_cases h1 : c = '\\' ∨ c = 'λ'
  · exact Or.inl h1
  by_cases h2 : c = '('
  · exact Or.inr (Or.inl h2)
  by_cases h3 : c = ')'
  · exact Or.inr (Or.inr (Or.inl h3))
  rcases h4 : to_digit16 c with _ | n
  · by_cases h5 : is_whitespace c = true
    · exact Or.inr (Or.inr (Or.inr (Or.inr (Or.inl h5))))
    · refine Or.inr (Or.inr (Or.inr (Or.inr (Or.inr ?_))))
      push_neg at h1
      have h5' : is_whitespace c = false := by
        cases hb : is_whitespace c
        · rfl
        · exact absurd hb h5
      simp [specGoodChar, h1.1, h1.2, h2, h3, h4, h5']
  · exact Or.inr (Or.inr (Or.inr (Or.inl ⟨n, rfl⟩)))

theorem to_digit16_le15 (c : Char) (n : Nat) (h : to_digit16 c = some n) : n ≤ 15 := by
  simp only [to_digit16] at h
  split_ifs at h with h1 h2 h3 <;> simp only [Option.some.injEq] at h <;> omega

theorem to_digit16_pos (c : Char) (hc : c ≠ '0') (n : Nat)
    (h : to_digit16 c = some n) : 1 ≤ n := by
  simp only [to_digit16] at h
  split_ifs at h with h1 h2 h3 <;> simp only [Option.some.injEq] at h <;> subst h
  · by_contra hn
    have hz : c.toNat = 48 := by omega
    have hr := Char.ofNat_toNat c
    rw [hz] at hr
    exact hc (by rw [← hr])
  · omega
  · omega

/-- Every `Number` token produced by the tokenizer loop comes from the
accumulator or from a hex digit of the input. -/
theorem tokenizeAux_numbers (cs : List Char) :
    ∀ pos acc ts, tokenizeAux cs pos acc = .ok ts →
    ∀ n, Token.number n ∈ ts →
      Token.number n ∈ acc ∨ ∃ c, c ∈ cs ∧ to_digit16 c = some n := by
  induction cs with
  | nil =>
    intro pos acc ts h n hn
    rw [tokenizeAux_nil] at h
    simp only [Except.ok.injEq] at h
    subst h
    exact Or.inl hn
  | cons c rest ih =>
    intro pos acc ts h n hn
    rcases charCases c with hL | hP | hR | ⟨m, hD⟩ | hW | hB
    · rw [tokenizeAux_cons_lambda _ _ _ _ hL] at h
      rcases ih _ _ _ h n hn with hacc | ⟨c', hc', hd⟩
      · rcases List.mem_append.mp hacc with h1 | h2
        · exact Or.inl h1
        · simp at h2
      · exact Or.inr ⟨c', List.mem_cons_of_mem _ hc', hd⟩
    · subst hP
      rw [tokenizeAux_cons_lparen] at h
      rcases ih _ _ _ h n hn with hacc | ⟨c', hc', hd⟩
      · rcases List.mem_append.mp hacc with h1 | h2
        · exact Or.inl h1
        · simp at h2
      · exact Or.inr ⟨c', List.mem_cons_of_mem _ hc', hd⟩
    · subst hR
      rw [tokenizeAux_cons_rparen] at h
      rcases ih _ _ _ h n hn with hacc | ⟨c', hc', hd⟩
      · rcases List.mem_append.mp hacc with h1 | h2
        · exact Or.inl h1
        · simp at h2
      · exact Or.inr ⟨c', List.mem_cons_of_mem _ hc', hd⟩
    · rw [tokenizeAux_cons_digit _ _ _ _ _ hD] at h
      rcases ih _ _ _ h n hn with hacc | ⟨c', hc', hd⟩
      · rcases List.mem_append.mp hacc with h1 | h2
        · exact Or.inl h1
        · simp only [List.mem_singleton, Token.number.injEq] at h2
          subst h2
          exact Or.inr ⟨c, List.mem_cons_self _ _, hD⟩
      · exact Or.inr ⟨c', List.mem_cons_of_mem _ hc', hd⟩
    · rw [tokenizeAux_cons_ws _ _ _ _ hW] at h
      rcases ih _ _ _ h n hn with hacc | ⟨c', hc', hd⟩
      · exact Or.inl hacc
      · exact Or.inr ⟨c', List.mem_cons_of_mem _ hc', hd⟩
    · rw [tokenizeAux_cons_bad _ _ _ _ hB] at h
      cases h

theorem swapLam_eq_self (c : Char) (h1 : c ≠ '\\') (h2 : c ≠ 'λ') :
    swapLam c = c := by
  simp [swapLam, h1, h2]

/-- Swapping the two lambda spellings does not change a successful
token sequence (the running position may differ, so it is universally
quantified on the right). -/
theorem tokenizeAux_swap (cs : List Char) :
    ∀ pos pos' acc ts, tokenizeAux cs pos acc = .ok ts →
      tokenizeAux (cs.map swapLam) pos' acc = .ok ts := by
  induction cs with
  | nil =>
    intro pos pos' acc ts h
    rw [tokenizeAux_nil] at h
    simpa [tokenizeAux_nil] using h
  | cons c rest ih =>
    intro pos pos' acc ts h
    simp only [List.map_cons]
    rcases charCases c with hL | hP | hR | ⟨m, hD⟩ | hW | hB
    · have hL' : swapLam c = '\\' ∨ swapLam c = 'λ' := by
        rcases hL with rfl | rfl
        · right; decide
        · left; decide
      rw [tokenizeAux_cons_lambda _ _ _ _ hL']
      rw [tokenizeAux_cons_lambda _ _ _ _ hL] at h
      exact ih _ _ _ _ h
    · subst hP
      rw [show swapLam '(' = '(' by decide, tokenizeAux_cons_lparen]
      rw [tokenizeAux_cons_lparen] at h
      exact ih _ _ _ _ h
    · subst hR
      rw [show swapLam ')' = ')' by decide, tokenizeAux_cons_rparen]
      rw [tokenizeAux_cons_rparen] at h
      exact ih _ _ _ _ h
    · have hne := to_digit16_not_special c m hD
      rw [swapLam_eq_self c hne.1 hne.2.1]
      rw [tokenizeAux_cons_digit _ _ _ _ _ hD] at h
      rw [tokenizeAux_cons_digit _ _ _ _ _ hD]
      exact ih _ _ _ _ h
    · have hne := is_whitespace_not_special c hW
      rw [swapLam_eq_self c hne.1 hne.2.1]
      rw [tokenizeAux_cons_ws _ _ _ _ hW] at h
      rw [tokenizeAux_cons_ws _ _ _ _ hW]
      exact ih _ _ _ _ h
    · rw [tokenizeAux_cons_bad _ _ _ _ hB] at h
      cases h

/-- Removing the whitespace characters does not change a successful
token sequence. -/
theorem tokenizeAux_ws_filter (cs : List Char) :
    ∀ pos pos' acc ts, tokenizeAux cs pos acc = .ok ts →
      tokenizeAux (cs.filter fun c => !is_whitespace c) pos' acc = .ok ts := by
  induction cs with
  | nil =>
    intro pos pos' acc ts h
    rw [tokenizeAux_nil] at h
    simpa [tokenizeAux_nil] using h
  | cons c rest ih =>
    intro pos pos' acc ts h
    rcases charCases c with hL | hP | hR | ⟨m, hD⟩ | hW | hB
    · have hws : is_whitespace c = false := by
        rcases hL with rfl | rfl <;> decide
      rw [List.filter_cons_of_pos (by simp [hws])]
      rw [tokenizeAux_cons_lambda _ _ _ _ hL] at h
      rw [tokenizeAux_cons_lambda _ _ _ _ hL]
      exact ih _ _ _ _ h
    · subst hP
      rw [List.filter_cons_of_pos (by decide)]
      rw [tokenizeAux_cons_lparen] at h
      rw [tokenizeAux_cons_lparen]
      exact ih _ _ _ _ h
    · subst hR
      rw [List.filter_cons_of_pos (by decide)]
      rw [tokenizeAux_cons_rparen] at h
      rw [tokenizeAux_cons_rparen]
      exact ih _ _ _ _ h
    · have hws : is_whitespace c = false := by
        have := (is_whitespace_not_special c).mt
        cases hx : is_whitespace c
        · rfl
        · obtain ⟨_, _, _, _, hnone⟩ := is_whitespace_not_special c hx
          rw [hnone] at hD
          cases hD
      rw [List.filter_cons_of_pos (by simp [hws])]
      rw [tokenizeAux_cons_digit _ _ _ _ _ hD] at h
      rw [tokenizeAux_cons_digit _ _ _ _ _ hD]
      exact ih _ _ _ _ h
    · rw [List.filter_cons_of_neg (by simp [hW])]
      rw [tokenizeAux_cons_ws _ _ _ _ hW] at h
      exact ih _ _ _ _ h
    · rw [tokenizeAux_cons_bad _ _ _ _ hB] at h
      cases h

/-- On all-good input the tokenizer succeeds and emits exactly the
character-wise tokens. -/
theorem tokenizeAux_good (cs : List Char) :
    ∀ pos acc, cs.all specGoodChar = true →
      tokenizeAux cs pos acc = .ok (acc ++ cs.filterMap specCharToken) := by
  induction cs with
  | nil => intro pos acc _; simp [tokenizeAux_nil]
  | cons c rest ih =>
    intro pos acc hall
    simp only [List.all_cons, Bool.and_eq_true] at hall
    rcases charCases c with hL | hP | hR | ⟨m, hD⟩ | hW | hB
    · rw [tokenizeAux_cons_lambda _ _ _ _ hL, ih _ _ hall.2]
      have hct : specCharToken c = some .lambda := by
        rcases hL with rfl | rfl <;> decide
      simp [List.filterMap_cons, hct]
    · subst hP
      rw [tokenizeAux_cons_lparen, ih _ _ hall.2]
      simp [List.filterMap_cons, show specCharToken '(' = some Token.lparen by decide]
    · subst hR
      rw [tokenizeAux_cons_rparen, ih _ _ hall.2]
      simp [List.filterMap_cons, show specCharToken ')' = some Token.rparen by decide]
    · rw [tokenizeAux_cons_digit _ _ _ _ _ hD, ih _ _ hall.2]
      have hne := to_digit16_not_special c m hD
      have hct : specCharToken c = some (.number m) := by
        simp [specCharToken, hne.1, hne.2.1, hne.2.2.1, hne.2.2.2, hD]
      simp [List.filterMap_cons, hct]
    · rw [tokenizeAux_cons_ws _ _ _ _ hW, ih _ _ hall.2]
      have hne := is_whitespace_not_special c hW
      have hct : specCharToken c = none := by
        simp [specCharToken, hne.1, hne.2.1, hne.2.2.1, hne.2.2.2.1, hne.2.2.2.2]
      simp [List.filterMap_cons, hct]
    · rw [hB] at hall
      cases hall.1

/-- On input with a bad character the tokenizer fails at the leftmost
one, reporting the accumulated width of the characters before it. -/
theorem tokenizeAux_bad_pos (cs : List Char) :
    ∀ pos acc, cs.all specGoodChar = false →
    ∃ pre c post, cs = pre ++ c :: post ∧ pre.all specGoodChar = true ∧
      specGoodChar c = false ∧
      tokenizeAux cs pos acc =
        .error (.invalidCharacter (pos + ((pre.map rustWidth).sum), c)) := by
  induction cs with
  | nil => intro pos acc h; simp at h
  | cons c rest ih =>
    intro pos acc h
    cases hg : specGoodChar c with
    | false =>
      refine ⟨[], c, rest, rfl, rfl, hg, ?_⟩
      rw [tokenizeAux_cons_bad _ _ _ _ hg]
      simp
    | true =>
      have hrest : rest.all specGoodChar = false := by
        simp only [List.all_cons, hg, Bool.true_and] at h
        exact h
      have hstep : ∀ acc', tokenizeAux (c :: rest) pos acc =
          tokenizeAux rest (pos + rustWidth c) acc' →
          ∃ pre c' post, (c :: rest : List Char) = (c :: pre) ++ c' :: post ∧
            (c :: pre).all specGoodChar = true ∧ specGoodChar c' = false ∧
            tokenizeAux (c :: rest) pos acc =
              .error (.invalidCharacter (pos + (((c :: pre).map rustWidth).sum), c')) := by
        intro acc' hs
        obtain ⟨pre, c', post, heq, hpre, hbad, herr⟩ := ih (pos + rustWidth c) acc' hrest
        refine ⟨pre, c', post, by simp [heq], ?_, hbad, ?_⟩
        · simp [List.all_cons, hg, hpre]
        · have harith : pos + rustWidth c + (pre.map rustWidth).sum =
              pos + (rustWidth c + (pre.map rustWidth).sum) := by omega
          rw [hs, herr, List.map_cons, List.sum_cons, ← harith]
      rcases charCases c with hL | hP | hR | ⟨m, hD⟩ | hW | hB
      · obtain ⟨pre, c', post, heq, hpre, hbad, herr⟩ :=
          hstep _ (tokenizeAux_cons_lambda _ _ _ _ hL)
        exact ⟨c :: pre, c', post, heq, hpre, hbad, herr⟩
      · subst hP
        obtain ⟨pre, c', post, heq, hpre, hbad, herr⟩ :=
          hstep _ (tokenizeAux_cons_lparen _ _ _)
        exact ⟨'(' :: pre, c', post, heq, hpre, hbad, herr⟩
      · subst hR
        obtain ⟨pre, c', post, heq, hpre, hbad, herr⟩ :=
          hstep _ (tokenizeAux_cons_rparen _ _ _)
        exact ⟨')' :: pre, c', post, heq, hpre, hbad, herr⟩
      · obtain ⟨pre, c', post, heq, hpre, hbad, herr⟩ :=
          hstep _ (tokenizeAux_cons_digit _ _ _ _ _ hD)
        exact ⟨c :: pre, c', post, heq, hpre, hbad, herr⟩
      · obtain ⟨pre, c', post, heq, hpre, hbad, herr⟩ :=
          hstep _ (tokenizeAux_cons_ws _ _ _ _ hW)
        exact ⟨c :: pre, c', post, heq, hpre, hbad, herr⟩
      · rw [hB] at hg
        cases hg

/-- Inserting whitespace back: a successful tokenization of the
whitespace-free characters extends to the full list. -/
theorem tokenizeAux_ws_expand (cs : List Char) :
    ∀ pos pos' acc ts,
      tokenizeAux (cs.filter fun c => !is_whitespace c) pos acc = .ok ts →
      tokenizeAux cs pos' acc = .ok ts := by
  induction cs with
  | nil =>
    intro pos pos' acc ts h
    rw [List.filter_nil, tokenizeAux_nil] at h
    simpa [tokenizeAux_nil] using h
  | cons c rest ih =>
    intro pos pos' acc ts h
    rcases charCases c with hL | hP | hR | ⟨m, hD⟩ | hW | hB
    · have hws : is_whitespace c = false := by
        rcases hL with rfl | rfl <;> decide
      rw [List.filter_cons_of_pos (by simp [hws]),
        tokenizeAux_cons_lambda _ _ _ _ hL] at h
      rw [tokenizeAux_cons_lambda _ _ _ _ hL]
      exact ih _ _ _ _ h
    · subst hP
      rw [List.filter_cons_of_pos (by decide), tokenizeAux_cons_lparen] at h
      rw [tokenizeAux_cons_lparen]
      exact ih _ _ _ _ h
    · subst hR
      rw [List.filter_cons_of_pos (by decide), tokenizeAux_cons_rparen] at h
      rw [tokenizeAux_cons_rparen]
      exact ih _ _ _ _ h
    · have hws : is_whitespace c = false := by
        cases hx : is_whitespace c
        · rfl
        · obtain ⟨_, _, _, _, hnone⟩ := is_whitespace_not_special c hx
          rw [hnone] at hD
          cases hD
      rw [List.filter_cons_of_pos (by simp [hws]),
        tokenizeAux_cons_digit _ _ _ _ _ hD] at h
      rw [tokenizeAux_cons_digit _ _ _ _ _ hD]
      exact ih _ _ _ _ h
    · rw [List.filter_cons_of_neg (by simp [hW])] at h
      rw [tokenizeAux_cons_ws _ _ _ _ hW]
      exact ih _ _ _ _ h
    · have hws : is_whitespace c = false := by
        have h' := hB
        simp only [specGoodChar, Bool.or_eq_false_iff] at h'
        exact h'.2
      rw [List.filter_cons_of_pos (by simp [hws]),
        tokenizeAux_cons_bad _ _ _ _ hB] at h
      cases h

/-- The tokenizer can fail only with `InvalidCharacter`. -/
theorem tokenize_error_invalid (input : List Char) (e : Error)
    (h : tokenize input = .error e) : ∃ p c, e = .invalidCharacter (p, c) := by
  cases hall : input.all specGoodChar with
  | false =>
    obtain ⟨pre, c, post, _, _, _, herr⟩ := tokenizeAux_bad_pos input 0 [] hall
    have herr' : tokenize input =
        .error (.invalidCharacter (0 + (pre.map rustWidth).sum, c)) := herr
    rw [h] at herr'
    simp only [Except.error.injEq] at herr'
    exact ⟨_, _, herr'⟩
  | true =>
    have hok : tokenize input = .ok ([] ++ input.filterMap specCharToken) :=
      tokenizeAux_good input 0 [] hall
    rw [h] at hok
    cases hok

/-- On nonempty token lists, `parse` reduces to folding the level list of
the (always `Sequence`-shaped) AST. -/
theorem parse_pipeline (input : List Char) (ts : List Token)
    (ht : tokenize input = .ok ts) (hne : ts ≠ []) :
    ∃ es, (astLoopE ts []).1 = .sequence es ∧ get_ast ts = .ok (.sequence es) ∧
      parse input = fold_exprs es [] [] := by
  obtain ⟨es, hs⟩ := astLoopE_shape ts []
  have hg : get_ast ts = .ok (.sequence es) := by
    rw [get_ast_eq, if_neg (by simpa [List.isEmpty_iff] using hne), hs]
  refine ⟨es, hs, hg, ?_⟩
  simp only [parse, ht, hg]

/-- C1: a level of `k` leading abstraction markers followed by resolvable
operands folds to the left-associated application of the operands (first
operand as seed) wrapped in `k` nested unary abstractions; in particular
parsing "λλλ2(321)" gives the canonical successor term. -/
theorem c1_curried_fold :
    (∀ (k : Nat) (es : List Expression) (t : Term) (ts : List Term),
      resolveOps es = .ok (t :: ts) →
      fold_exprs (List.replicate k .abstraction ++ es) [] [] =
        .ok (nestAbs k (ts.foldl Term.app t))) ∧
    parse "λλλ2(321)".toList =
      .ok (.abs (.abs (.abs (.app (.var 2)
        (.app (.app (.var 3) (.var 2)) (.var 1)))))) := by
  constructor
  · exact fold_exprs_curried_aux
  · simp [parse, tokenize, tokenizeAux, get_ast_eq, astLoopE_nil,
      astLoopE_lambda, astLoopE_number, astLoopE_rparen, astLoopE_lparen,
      fold_exprs, fold_terms, wrapRev, to_digit16, is_whitespace]

theorem c1_witness :
    resolveOps [.variable 1, .variable 2] = .ok [Term.var 1, Term.var 2] ∧
    fold_exprs (List.replicate 1 .abstraction ++ [.variable 1, .variable 2]) [] [] =
      .ok (nestAbs 1 ([Term.var 2].foldl Term.app (Term.var 1))) :=
  ⟨by simp [resolveOps, fold_single_var],
    c1_curried_fold.1 1 [.variable 1, .variable 2] (Term.var 1) [Term.var 2]
      (by simp [resolveOps, fold_single_var])⟩

/-- C2: an `RParen` ends the current sequence at once (handing the tokens
after it back to the enclosing level), running out of tokens ends the
sequence as well, and unbalanced inputs such as "(λ1" and "1)2" parse
without error — the tokens after an unmatched closing parenthesis at the
outermost level being discarded. -/
theorem c2_unmatched_paren_lenient :
    (∀ (rest : List Token) (expr : List Expression),
      astLoopE (.rparen :: rest) expr = ⟨.sequence expr, rest⟩) ∧
    (∀ expr : List Expression, astLoopE [] expr = ⟨.sequence expr, []⟩) ∧
    parse "(λ1".toList = .ok (.abs (.var 1)) ∧
    parse "1)2".toList = .ok (.var 1) := by
  refine ⟨astLoopE_rparen, astLoopE_nil, ?_, ?_⟩ <;>
    simp [parse, tokenize, tokenizeAux, get_ast_eq, astLoopE_nil,
      astLoopE_lambda, astLoopE_number, astLoopE_rparen, astLoopE_lparen,
      fold_exprs, fold_terms, wrapRev, to_digit16, is_whitespace]

/-- C3: `parse` returns `EmptyExpression` exactly when the token list is
empty or some sequence level of the AST has zero operands after removing
abstraction markers; in particular "", "λ" and "()" all fail that way. -/
theorem c3_empty_expression_iff :
    (∀ es : List Expression,
      fold_exprs es [] [] = .error .emptyExpression ↔
        hasEmptyLevel (.sequence es) = true) ∧
    (∀ input : List Char, parse input = .error .emptyExpression ↔
      ∃ ts, tokenize input = .ok ts ∧
        (ts = [] ∨ ∃ a, get_ast ts = .ok a ∧ hasEmptyLevel a = true)) ∧
    parse "".toList = .error .emptyExpression ∧
    parse "λ".toList = .error .emptyExpression ∧
    parse "()".toList = .error .emptyExpression := by
  have hfold : ∀ es : List Expression,
      fold_exprs es [] [] = .error .emptyExpression ↔
        hasEmptyLevel (.sequence es) = true := by
    intro es
    rw [fold_exprs_empty_iff]
    simp only [hasEmptyLevel, Bool.or_eq_true]
    constructor
    · rintro (h1 | h2)
      · exact Or.inr h1
      · exact Or.inl h2.2
    · rintro (h1 | h2)
      · exact Or.inr ⟨by trivial, h1⟩
      · exact Or.inl h2
  refine ⟨hfold, ?_, ?_, ?_, ?_⟩
  · intro input
    rcases ht : tokenize input with e | ts
    · obtain ⟨p, c, rfl⟩ := tokenize_error_invalid input e ht
      simp [parse, ht]
    · by_cases hne : ts = []
      · subst hne
        constructor
        · intro _
          exact ⟨[], rfl, Or.inl rfl⟩
        · intro _
          simp [parse, ht, get_ast]
      · obtain ⟨es, hs, hg, hp⟩ := parse_pipeline input ts ht hne
        rw [hp, hfold es]
        constructor
        · intro h
          exact ⟨ts, rfl, Or.inr ⟨.sequence es, hg, h⟩⟩
        · rintro ⟨ts', hts', hd⟩
          simp only [Except.ok.injEq] at hts'
          subst hts'
          rcases hd with rfl | ⟨a, ha, hae⟩
          · exact absurd rfl hne
          · rw [hg] at ha
            simp only [Except.ok.injEq] at ha
            subst ha
            exact hae
  · rfl
  · simp [parse, tokenize, tokenizeAux, get_ast_eq, astLoopE_nil,
      astLoopE_lambda, astLoopE_number, astLoopE_rparen, astLoopE_lparen,
      fold_exprs, fold_terms, wrapRev, to_digit16, is_whitespace]
  · simp [parse, tokenize, tokenizeAux, get_ast_eq, astLoopE_nil,
      astLoopE_lambda, astLoopE_number, astLoopE_rparen, astLoopE_lparen,
      fold_exprs, fold_terms, wrapRev, to_digit16, is_whitespace]

/-- C4: no input makes `parse` return `InvalidExpression`: the AST
builder's top-level result is always a `Sequence`, so that branch is
unreachable. -/
theorem c4_invalid_expression_unreachable :
    ∀ input : List Char, isInvalidExpressionResult (parse input) = false := by
  intro input
  rcases ht : tokenize input with e | ts
  · obtain ⟨p, c, rfl⟩ := tokenize_error_invalid input e ht
    simp [parse, ht, isInvalidExpressionResult]
  · by_cases hne : ts = []
    · subst hne
      simp [parse, ht, get_ast, isInvalidExpressionResult]
    · obtain ⟨es, hs, hg, hp⟩ := parse_pipeline input ts ht hne
      rw [hp]
      rcases hf : fold_exprs es [] [] with e | t
      · have he := fold_exprs_error_empty es [] [] e hf
        subst he
        simp [isInvalidExpressionResult]
      · simp [isInvalidExpressionResult]

/-- A tokenizer `InvalidCharacter` error splits the input at the leftmost
bad character and reports the accumulated widths of the characters
before it. -/
theorem tokenize_invalid_decomp (input : List Char) (p : Nat) (c : Char)
    (h : tokenize input = .error (.invalidCharacter (p, c))) :
    specGoodChar c = false ∧
      ∃ pre post, input = pre ++ c :: post ∧ pre.all specGoodChar = true ∧
        p = (pre.map rustWidth).sum := by
  cases hall : input.all specGoodChar with
  | true =>
    have hok : tokenize input = .ok ([] ++ input.filterMap specCharToken) :=
      tokenizeAux_good input 0 [] hall
    rw [h] at hok
    cases hok
  | false =>
    obtain ⟨pre, c', post, heq, hpre, hbad, herr⟩ :=
      tokenizeAux_bad_pos input 0 [] hall
    have herr' : tokenize input =
        .error (.invalidCharacter (0 + (pre.map rustWidth).sum, c')) := herr
    rw [h] at herr'
    simp only [Except.error.injEq, Error.invalidCharacter.injEq,
      Prod.mk.injEq] at herr'
    obtain ⟨hp, hc⟩ := herr'
    subst hc
    exact ⟨hbad, pre, post, heq, hpre, by omega⟩

/-- C5 counterexample: with a multi-byte whitespace character (U+00A0,
two UTF-8 bytes) before the offending character, the reported position
is 1 while the byte offset of the offending character is 2: the reported
position is not in general the UTF-8 byte offset. -/
theorem c5_counterexample :
    tokenize [Char.ofNat 0xA0, 'x'] = .error (.invalidCharacter (1, 'x')) ∧
    (([Char.ofNat 0xA0, 'x'].take 1).map utf8Len).sum = 2 ∧
    decide ((([Char.ofNat 0xA0, 'x'].take 1).map utf8Len).sum = 1) = false := by
  refine ⟨by rfl, by rfl, by rfl⟩

/-- C5 (amended): the position counter adds 2 per lambda glyph and 1 per
other consumed character, so the reported position is the sum of those
widths over the characters before the offending one; that sum equals the
UTF-8 byte offset whenever each preceding character's UTF-8 width equals
its counted width (true for the glyph and for single-byte characters,
not for multi-byte whitespace); in particular tokenize("λλx2") reports
position 4 and character 'x'. -/
theorem c5_amended_position :
    (∀ (input : List Char) (p : Nat) (c : Char),
      tokenize input = .error (.invalidCharacter (p, c)) →
      ∃ pre post, input = pre ++ c :: post ∧ pre.all specGoodChar = true ∧
        p = (pre.map rustWidth).sum) ∧
    (∀ cs : List Char, (∀ c ∈ cs, utf8Len c = rustWidth c) →
      (cs.map rustWidth).sum = (cs.map utf8Len).sum) ∧
    tokenize "λλx2".toList = .error (.invalidCharacter (4, 'x')) := by
  refine ⟨?_, ?_, by rfl⟩
  · intro input p c h
    exact (tokenize_invalid_decomp input p c h).2
  · intro cs h
    have : cs.map rustWidth = cs.map utf8Len :=
      List.map_congr_left (fun c hc => (h c hc).symm)
    rw [this]

theorem c5_witness :
    ∃ pre post, "λx".toList = pre ++ 'x' :: post ∧
      pre.all specGoodChar = true ∧ 2 = (pre.map rustWidth).sum :=
  c5_amended_position.1 "λx".toList 2 'x' (by rfl)

/-- C6 counterexample: `parse "0"` succeeds with `Variable 0`, whose
index is not a positive integer. -/
theorem c6_counterexample :
    parse "0".toList = .ok (.var 0) ∧
    allVars (fun i => decide (1 ≤ i)) (.var 0) = false := by
  constructor
  · simp [parse, tokenize, tokenizeAux, get_ast_eq, astLoopE_nil,
      astLoopE_lambda, astLoopE_number, astLoopE_rparen, astLoopE_lparen,
      fold_exprs, fold_terms, wrapRev, to_digit16, is_whitespace]
  · rfl

/-- C6 (amended): every Variable index in a successful parse is a hex
digit value (at most 15), and is positive provided the input contains no
'0' character — index 0 is reachable, e.g. from input "0". -/
theorem c6_amended_var_bounds :
    ∀ (input : List Char) (t : Term), parse input = .ok t →
      allVars (fun i => decide (i ≤ 15)) t = true ∧
      ('0' ∉ input → allVars (fun i => decide (1 ≤ i)) t = true) := by
  intro input t h
  rcases ht : tokenize input with e | ts
  · simp [parse, ht] at h
  · by_cases hne : ts = []
    · subst hne
      simp [parse, ht, get_ast] at h
    · obtain ⟨es, hs, hg, hp⟩ := parse_pipeline input ts ht hne
      rw [hp] at h
      have hseq : ∀ p : Nat → Bool, (∀ n, Token.number n ∈ ts → p n = true) →
          exprsVars p es = true := by
        intro p hnum
        have hv := astLoopE_vars p ts [] hnum (by simp [exprsVars])
        rw [hs] at hv
        simpa [exprVars] using hv
      constructor
      · refine fold_exprs_vars _ es [] [] (hseq _ ?_) (by simp) t h
        intro n hn
        rcases tokenizeAux_numbers input 0 [] ts ht n hn with h0 | ⟨c, _, hd⟩
        · simp at h0
        · simp [to_digit16_le15 c n hd]
      · intro h0
        refine fold_exprs_vars _ es [] [] (hseq _ ?_) (by simp) t h
        intro n hn
        rcases tokenizeAux_numbers input 0 [] ts ht n hn with hx | ⟨c, hc, hd⟩
        · simp at hx
        · have hcne : c ≠ '0' := fun hcc => h0 (hcc ▸ hc)
          simp [to_digit16_pos c hcne n hd]

theorem c6_witness :
    allVars (fun i => decide (1 ≤ i)) (.var 1) = true :=
  (c6_amended_var_bounds "1".toList (.var 1)
    (by simp [parse, tokenize, tokenizeAux, get_ast_eq, astLoopE_nil,
      astLoopE_lambda, astLoopE_number, astLoopE_rparen, astLoopE_lparen,
      fold_exprs, fold_terms, wrapRev, to_digit16, is_whitespace])).2
    (by decide)

/-- C7 counterexample: replacing the backslash of "\x" by the lambda
glyph changes the error value — the invalid character is reported at
position 1 for the backslash spelling but at position 2 for the glyph
spelling, so the two spellings do not always yield identical results. -/
theorem c7_counterexample :
    parse "\\x".toList = .error (.invalidCharacter (1, 'x')) ∧
    parse ("\\x".toList.map swapLam) = .error (.invalidCharacter (2, 'x')) ∧
    decide (parse ("\\x".toList.map swapLam) = parse "\\x".toList) = false := by
  refine ⟨by rfl, by rfl, by rfl⟩

/-- C7 (amended): swapping the two lambda spellings character-wise
preserves the token sequence of every input that tokenizes, and hence
preserves every successful parse result; only the positions inside
tokenizer errors can differ. -/
theorem c7_amended_swap :
    (∀ (input : List Char) (ts : List Token),
      tokenize input = .ok ts → tokenize (input.map swapLam) = .ok ts) ∧
    (∀ (input : List Char) (t : Term),
      parse input = .ok t → parse (input.map swapLam) = .ok t) := by
  have h1 : ∀ (input : List Char) (ts : List Token),
      tokenize input = .ok ts → tokenize (input.map swapLam) = .ok ts :=
    fun input ts h => tokenizeAux_swap input 0 0 [] ts h
  refine ⟨h1, ?_⟩
  intro input t h
  rcases ht : tokenize input with e | ts
  · simp [parse, ht] at h
  · have ht' : tokenize (input.map swapLam) = .ok ts := h1 input ts ht
    simp only [parse, ht] at h
    simp only [parse, ht']
    exact h

theorem c7_witness :
    parse ("λ1".toList.map swapLam) = .ok (.abs (.var 1)) :=
  c7_amended_swap.2 "λ1".toList (.abs (.var 1))
    (by simp [parse, tokenize, tokenizeAux, get_ast_eq, astLoopE_nil,
      astLoopE_lambda, astLoopE_number, astLoopE_rparen, astLoopE_lparen,
      fold_exprs, fold_terms, wrapRev, to_digit16, is_whitespace])

/-- C8: whitespace yields no tokens, so two inputs that agree after
removing whitespace tokenize to the same sequence (whenever both
tokenize) and parse to the same term (whenever one parses); in
particular parse("λ 1 ( (λ 1 1) )") equals parse("λ1((λ11))"). -/
theorem c8_whitespace_insensitive :
    (∀ (input : List Char) (ts : List Token), tokenize input = .ok ts →
      tokenize (input.filter fun c => !is_whitespace c) = .ok ts) ∧
    (∀ (i₁ i₂ : List Char) (ts₁ ts₂ : List Token),
      i₁.filter (fun c => !is_whitespace c) = i₂.filter (fun c => !is_whitespace c) →
      tokenize i₁ = .ok ts₁ → tokenize i₂ = .ok ts₂ → ts₁ = ts₂) ∧
    (∀ (i₁ i₂ : List Char) (t : Term),
      i₁.filter (fun c => !is_whitespace c) = i₂.filter (fun c => !is_whitespace c) →
      parse i₁ = .ok t → parse i₂ = .ok t) ∧
    parse "λ 1 ( (λ 1 1) )".toList = parse "λ1((λ11))".toList := by
  have hA : ∀ (input : List Char) (ts : List Token), tokenize input = .ok ts →
      tokenize (input.filter fun c => !is_whitespace c) = .ok ts :=
    fun input ts h => tokenizeAux_ws_filter input 0 0 [] ts h
  have hT : ∀ (i₁ i₂ : List Char) (ts : List Token),
      i₁.filter (fun c => !is_whitespace c) = i₂.filter (fun c => !is_whitespace c) →
      tokenize i₁ = .ok ts → tokenize i₂ = .ok ts := by
    intro i₁ i₂ ts hf h₁
    have e₁ := hA i₁ ts h₁
    rw [hf] at e₁
    exact tokenizeAux_ws_expand i₂ 0 0 [] ts e₁
  refine ⟨hA, ?_, ?_, ?_⟩
  · intro i₁ i₂ ts₁ ts₂ hf h₁ h₂
    have h₂' := hT i₁ i₂ ts₁ hf h₁
    rw [h₂] at h₂'
    simpa using h₂'.symm
  · intro i₁ i₂ t hf h
    rcases ht : tokenize i₁ with e | ts
    · simp [parse, ht] at h
    · have ht₂ := hT i₁ i₂ ts hf ht
      simp only [parse, ht] at h
      simp only [parse, ht₂]
      exact h
  · simp [parse, tokenize, tokenizeAux, get_ast_eq, astLoopE_nil,
      astLoopE_lambda, astLoopE_number, astLoopE_rparen, astLoopE_lparen,
      fold_exprs, fold_terms, wrapRev, to_digit16, is_whitespace]

theorem c8_witness :
    tokenize (" 1".toList.filter fun c => !is_whitespace c) = .ok [Token.number 1] :=
  c8_whitespace_insensitive.1 " 1".toList [Token.number 1] (by rfl)

/-- C9: tokenization succeeds exactly when every character is a
backslash, lambda glyph, parenthesis, hex digit, or whitespace; on
success each character contributes its token (whitespace none), every
hex digit value is at most 15, and on failure the leftmost bad character
is the one reported. -/
theorem c9_tokenizer_char_spec :
    (∀ input : List Char,
      (∃ ts, tokenize input = .ok ts) ↔ input.all specGoodChar = true) ∧
    (∀ input : List Char, input.all specGoodChar = true →
      tokenize input = .ok (input.filterMap specCharToken)) ∧
    (∀ (input : List Char) (p : Nat) (c : Char),
      tokenize input = .error (.invalidCharacter (p, c)) →
      specGoodChar c = false ∧
        ∃ pre post, input = pre ++ c :: post ∧ pre.all specGoodChar = true) ∧
    (∀ (c : Char) (n : Nat), to_digit16 c = some n → n ≤ 15) := by
  have hgood : ∀ input : List Char, input.all specGoodChar = true →
      tokenize input = .ok (input.filterMap specCharToken) := by
    intro input h
    have := tokenizeAux_good input 0 [] h
    simpa using this
  refine ⟨?_, hgood, ?_, to_digit16_le15⟩
  · intro input
    constructor
    · rintro ⟨ts, hts⟩
      cases hall : input.all specGoodChar with
      | false =>
        obtain ⟨pre, c, post, _, _, _, herr⟩ := tokenizeAux_bad_pos input 0 [] hall
        have herr' : tokenize input =
            .error (.invalidCharacter (0 + (pre.map rustWidth).sum, c)) := herr
        rw [hts] at herr'
        cases herr'
      | true => rfl
    · intro h
      exact ⟨_, hgood input h⟩
  · intro input p c h
    obtain ⟨hbad, pre, post, heq, hpre, hp⟩ := tokenize_invalid_decomp input p c h
    exact ⟨hbad, pre, post, heq, hpre⟩

theorem c9_witness :
    tokenize "λ1".toList = .ok ("λ1".toList.filterMap specCharToken) :=
  c9_tokenizer_char_spec.2.1 "λ1".toList (by decide)

/-- C10: within one level, where the abstraction markers sit among the
operands is irrelevant — the fold depends only on the operand list and
the marker count; in particular parse("1λ2") = parse("λ12") = one
abstraction around the application of Variable 1 to Variable 2. -/
theorem c10_marker_position_irrelevant :
    (∀ (es₁ es₂ stack : List Expression) (output : List Term),
      es₁.filter (fun e => !isMarker e) = es₂.filter (fun e => !isMarker e) →
      es₁.countP isMarker = es₂.countP isMarker →
      fold_exprs es₁ stack output = fold_exprs es₂ stack output) ∧
    parse "1λ2".toList = .ok (.abs (.app (.var 1) (.var 2))) ∧
    parse "λ12".toList = .ok (.abs (.app (.var 1) (.var 2))) := by
  refine ⟨?_, ?_, ?_⟩
  · intro es₁ es₂ stack output hf hc
    rw [fold_exprs_markers es₁, fold_exprs_markers es₂, hf, hc]
  · simp [parse, tokenize, tokenizeAux, get_ast_eq, astLoopE_nil,
      astLoopE_lambda, astLoopE_number, astLoopE_rparen, astLoopE_lparen,
      fold_exprs, fold_terms, wrapRev, to_digit16, is_whitespace]
  · simp [parse, tokenize, tokenizeAux, get_ast_eq, astLoopE_nil,
      astLoopE_lambda, astLoopE_number, astLoopE_rparen, astLoopE_lparen,
      fold_exprs, fold_terms, wrapRev, to_digit16, is_whitespace]

theorem c10_witness :
    [Expression.variable 1, Expression.abstraction].filter (fun e => !isMarker e) =
      [Expression.abstraction, Expression.variable 1].filter (fun e => !isMarker e) ∧
    fold_exprs [Expression.variable 1, Expression.abstraction] [] [] =
      fold_exprs [Expression.abstraction, Expression.variable 1] [] [] :=
  ⟨by simp [isMarker],
    c10_marker_position_irrelevant.1 _ _ [] [] (by simp [isMarker])
      (by simp [isMarker, List.countP_cons])⟩

end LambdaParser
